import Mathlib

/-!
# Word count store (`words.go`)

A shallow embedding of the package `words`: the `Word` record, the four
operations `WordUpsert`, `FetchWords`, `FetchWord`, `initDb` and the helper
`checkErr`, over an explicit model of the `words` table.

The table is a list of rows.  The calls the package makes on the gorp handle
(`SelectOne`, `Insert`, `Update`, `Select`, `TruncateTables`,
`CreateTablesIfNotExists`) and `sql.Open` are modelled as functions on that
list; each takes a `fault` argument, the persistence failure (if any) the
storage layer reports for that one call.  A failing call leaves the table
unchanged.

Go's `int` is taken to be 64 bits wide: `existingWord.Count + 1` wraps.
-/

namespace Words

/-! ## Data model -/

/-- Go `int` arithmetic on a 64-bit target: the result of an arithmetic
operation is reduced to the two's-complement range `[-2^63, 2^63)`. -/
def wrapInt (v : Int) : Int := (v + 2 ^ 63) % 2 ^ 64 - 2 ^ 63

/-- The largest Go `int` (`math.MaxInt64`). -/
def maxInt : Int := 2 ^ 63 - 1

/-- The smallest Go `int` (`math.MinInt64`). -/
def minInt : Int := -(2 ^ 63)

set_option linter.dupNamespace false in
/-- The record `type Word struct { Word string; Count int }`. -/
structure Word where
  Word : String
  Count : Int
deriving DecidableEq, Repr

/-- The zero value `Word{}`. -/
def emptyWord : Word := ⟨"", 0⟩

/-- Go `error` values the package can see: `sql.ErrNoRows`, or any other
failure reported by the persistence layer. -/
inductive DbError where
  | ErrNoRows
  | failure (msg : String)
deriving DecidableEq, Repr

/-- A Go `error`: `none` is `nil`. -/
abbrev GoError := Option DbError

/-- The rows of table `words`. -/
abbrev Table := List Word

/-- The variable `var logger *log.Logger`: `none` is the nil pointer, `some p` a logger
writing with line header `p`. -/
abbrev Logger := Option String

/-- How the process stops when it does not return to the caller. -/
inductive Crash where
  /-- The call `logger.Fatalln(msg, err)` on the logger with line header `header`: the
  line is written and `os.Exit(status)` is called, with `status = 1`. -/
  | exit (status : Nat) (header : String) (msg : String) (err : DbError)
  /-- The call `logger.Fatalln` was made on the nil logger: nil pointer dereference. -/
  | nilLogger
deriving DecidableEq, Repr

deriving instance DecidableEq for Except

/-! ## Storage layer -/

/-- The error a call reports when the storage layer fails it. -/
def faultError (fault : Option String) : GoError := fault.map DbError.failure

/-- Rows matched by `where word=?`. -/
def rowsFor (t : Table) (w : String) : List Word :=
  t.filter (fun r => decide (r.Word = w))

/-- The call `dbmap.SelectOne(&holder, "select * from words where word=?", w)`:
the holder after the call and the error.  No row gives `sql.ErrNoRows`,
one row fills the holder, several rows are an error. -/
def SelectOne (fault : Option String) (t : Table) (holder : Word) (w : String) :
    Word × GoError :=
  match fault with
  | some m => (holder, some (.failure m))
  | none =>
    match rowsFor t w with
    | [] => (holder, some .ErrNoRows)
    | [r] => (r, none)
    | _ :: _ :: _ => (holder, some (.failure "gorp: multiple rows returned"))

/-- The call `dbmap.Insert(&word)` on a table whose primary key is `word`. -/
def Insert (fault : Option String) (t : Table) (word : Word) : Table × GoError :=
  match fault with
  | some m => (t, some (.failure m))
  | none =>
    if rowsFor t word.Word = [] then (t ++ [word], none)
    else (t, some (.failure "UNIQUE constraint failed: words.word"))

/-- The call `dbmap.Update(&word)`: `update words set count=? where word=?`; returns the
table, the number of rows changed and the error. -/
def Update (fault : Option String) (t : Table) (word : Word) : Table × Int × GoError :=
  match fault with
  | some m => (t, 0, some (.failure m))
  | none =>
    (t.map (fun r => if r.Word = word.Word then { r with Count := word.Count } else r),
      ((rowsFor t word.Word).length : Int), none)

/-- The call `dbmap.Select(&words, "select * from words")`: the rows appended to the
slice, their number and the error. -/
def Select (fault : Option String) (t : Table) (words : List Word) :
    List Word × Int × GoError :=
  match fault with
  | some m => (words, 0, some (.failure m))
  | none => (words ++ t, (t.length : Int), none)

/-- The call `sql.Open("sqlite3", "/tmp/api_db.bin")`. -/
def sqlOpen (fault : Option String) : GoError := faultError fault

/-- The call `dbmap.TruncateTables()` on the database file, whose table `words` may not
exist yet (`none`). -/
def TruncateTables (fault : Option String) (file : Option Table) : Option Table × GoError :=
  match fault, file with
  | some m, _ => (file, some (.failure m))
  | none, none => (none, some (.failure "no such table: words"))
  | none, some _ => (some [], none)

/-- The call `dbmap.CreateTablesIfNotExists()`: creates the table `words`, with
primary key `word`, unless it exists. -/
def CreateTablesIfNotExists (fault : Option String) (file : Option Table) :
    Option Table × GoError :=
  match fault, file with
  | some m, _ => (file, some (.failure m))
  | none, none => (some [], none)
  | none, some t => (some t, none)

/-! ## The package -/

/-- The call `logger.Fatalln(msg, err)`: does not return. -/
def Fatalln (logger : Logger) (msg : String) (err : DbError) : Crash :=
  match logger with
  | some header => .exit 1 header msg err
  | none => .nilLogger

/-- Go `func checkErr(err error, msg string)`: returns when `err` is nil,
otherwise `logger.Fatalln(msg, err)` ends the process. -/
def checkErr (logger : Logger) (err : GoError) (msg : String) : Except Crash Unit :=
  match err with
  | none => .ok ()
  | some e => .error (Fatalln logger msg e)

/-- Failures the storage layer reports to the calls of one `WordUpsert`. -/
structure UpsertFaults where
  selectOne : Option String
  insert : Option String
  update : Option String
deriving DecidableEq, Repr

/-- No failure. -/
def UpsertFaults.none : UpsertFaults := ⟨Option.none, Option.none, Option.none⟩

/-- Go `func WordUpsert(word Word) error`: the table afterwards and the returned
error, or the way the process ended. -/
def WordUpsert (logger : Logger) (f : UpsertFaults) (t : Table) (word : Word) :
    Except Crash (Table × GoError) :=
  let existingWord : Word := emptyWord
  let (existingWord, err) := SelectOne f.selectOne t existingWord word.Word
  if err = some .ErrNoRows then
    -- new create
    let word : Word := { word with Count := 1 }
    let (t, err) := Insert f.insert t word
    .ok (t, err)
  else if err = Option.none then
    -- update
    let existingWord : Word :=
      { existingWord with Count := wrapInt (existingWord.Count + 1) }
    let (t, _, err) := Update f.update t existingWord
    match checkErr logger err "Update failed" with
    | .error c => .error c
    | .ok () => .ok (t, err)
  else
    .ok (t, err)

/-- Go `func FetchWords() ([]Word, error)`: the slice and the error, or the way
the process ended. -/
def FetchWords (logger : Logger) (fault : Option String) (t : Table) :
    Except Crash (List Word × GoError) :=
  let words : List Word := []
  let (words, _, err) := Select fault t words
  match checkErr logger err "FetchWords : select failed" with
  | .error c => .error c
  | .ok () => .ok (words, err)

/-- Go `func FetchWord(w string) (Word, error)`. -/
def FetchWord (fault : Option String) (t : Table) (w : String) : Word × GoError :=
  let word : Word := emptyWord
  let (word, err) := SelectOne fault t word w
  -- not found
  if err = some .ErrNoRows then
    (emptyWord, Option.none)
  -- other error
  else if err ≠ Option.none then
    (emptyWord, err)
  else
    (word, Option.none)

/-- Failures the storage layer reports to the steps of `initDb`. -/
structure InitFaults where
  open_ : Option String
  truncate : Option String
  create : Option String
deriving DecidableEq, Repr

/-- No failure. -/
def InitFaults.none : InitFaults := ⟨Option.none, Option.none, Option.none⟩

/-- Go `func initDb() *gorp.DbMap`: the database file behind the returned handle,
or the way the process ended.  The result of `TruncateTables` is dropped, as
in the source. -/
def initDb (logger : Logger) (f : InitFaults) (file : Option Table) :
    Except Crash (Option Table) :=
  let err := sqlOpen f.open_
  match checkErr logger err "sql.Open failed" with
  | .error c => .error c
  | .ok () =>
    -- `AddTableWithName(Word{}, "words").SetKeys(false, "word")` only records the
    -- mapping; it makes no storage call.
    -- truncate table
    let (file, _) := TruncateTables f.truncate file
    -- create the table
    let (file, err) := CreateTablesIfNotExists f.create file
    match checkErr logger err "Create tables failed" with
    | .error c => .error c
    | .ok () => .ok file

/-- Go `func init()`: `initDb` runs while `logger` is still nil, then the logger
is created.  The database file and the logger, or the way the process
ended. -/
def init (f : InitFaults) (file : Option Table) : Except Crash (Option Table × Logger) :=
  match initDb Option.none f file with
  | .error c => .error c
  | .ok dbmap => .ok (dbmap, some "[words] ")

/-! ## Sequences of calls -/

/-- One call of a client on the store, with the failures the storage layer
reports to it. -/
inductive Call where
  | upsert (f : UpsertFaults) (word : Word)
  | fetchWord (fault : Option String) (w : String)
  | fetchWords (fault : Option String)
deriving DecidableEq, Repr

/-- The table after one call, or the way the process ended. -/
def step (logger : Logger) (t : Table) : Call → Except Crash Table
  | .upsert f word =>
    match WordUpsert logger f t word with
    | .error c => .error c
    | .ok (t, _) => .ok t
  | .fetchWord fault w =>
    let _ := FetchWord fault t w
    .ok t
  | .fetchWords fault =>
    match FetchWords logger fault t with
    | .error c => .error c
    | .ok _ => .ok t

/-- The table left by a sequence of calls; a call that ends the process ends
the sequence, and the table stays as it was. -/
def run (logger : Logger) : Table → List Call → Table
  | t, [] => t
  | t, c :: cs =>
    match step logger t c with
    | .error _ => t
    | .ok t => run logger t cs

/-- Number of `WordUpsert` calls in a sequence. -/
def upserts : List Call → Nat
  | [] => 0
  | .upsert _ _ :: cs => upserts cs + 1
  | _ :: cs => upserts cs

/-- The table after calling `WordUpsert` once per entry, in order, when every
call returns a nil error; `none` as soon as one call does not. -/
def upsertAll (logger : Logger) : Table → List (UpsertFaults × Word) → Option Table
  | t, [] => some t
  | t, (f, word) :: cs =>
    match WordUpsert logger f t word with
    | .ok (t, Option.none) => upsertAll logger t cs
    | _ => Option.none

/-- No two rows of the table have the same `word`. -/
def KeysUnique (t : Table) : Prop := (t.map (fun r => r.Word)).Nodup

instance (t : Table) : Decidable (KeysUnique t) := by
  unfold KeysUnique; infer_instance

/-! ## Concurrent callers

`WordUpsert` makes two calls on the storage layer: the `SelectOne`, then the
`Insert` or the `Update`.  Each of the two is one SQL statement, executed
atomically; between them another caller may run. -/

/-- The part of `WordUpsert` up to and including its `SelectOne`. -/
def upsertRead (f : UpsertFaults) (t : Table) (word : Word) : Word × GoError :=
  let existingWord : Word := emptyWord
  SelectOne f.selectOne t existingWord word.Word

/-- The part of `WordUpsert` after its `SelectOne`, which left `existingWord` and `err`. -/
def upsertWrite (logger : Logger) (f : UpsertFaults) (t : Table) (word : Word)
    (existingWord : Word) (err : GoError) : Except Crash (Table × GoError) :=
  if err = some .ErrNoRows then
    let word : Word := { word with Count := 1 }
    let (t, err) := Insert f.insert t word
    .ok (t, err)
  else if err = Option.none then
    let existingWord : Word :=
      { existingWord with Count := wrapInt (existingWord.Count + 1) }
    let (t, _, err) := Update f.update t existingWord
    match checkErr logger err "Update failed" with
    | .error c => .error c
    | .ok () => .ok (t, err)
  else
    .ok (t, err)

/-- Where a caller of `WordUpsert` stands. -/
inductive Thread where
  /-- The caller has called `WordUpsert(word)`, `SelectOne` is not yet issued. -/
  | called (word : Word)
  /-- The `SelectOne` has returned; the `Insert` or `Update` is not yet issued. -/
  | selected (word : Word) (existingWord : Word) (err : GoError)
  /-- The call of `WordUpsert` has returned `err`. -/
  | returned (err : GoError)
deriving DecidableEq, Repr

/-- One storage call of one caller, with no storage failure. -/
def stepThread (logger : Logger) (t : Table) : Thread → Except Crash (Table × Thread)
  | .called word =>
    let (existingWord, err) := upsertRead UpsertFaults.none t word
    .ok (t, .selected word existingWord err)
  | .selected word existingWord err =>
    match upsertWrite logger UpsertFaults.none t word existingWord err with
    | .error c => .error c
    | .ok (t, err) => .ok (t, .returned err)
  | .returned err => .ok (t, .returned err)

/-- The caller at position `i` makes its next storage call. -/
def stepAt (logger : Logger) (t : Table) : List Thread → Nat → Except Crash (Table × List Thread)
  | [], _ => .ok (t, [])
  | th :: ths, 0 =>
    match stepThread logger t th with
    | .error c => .error c
    | .ok (t, th) => .ok (t, th :: ths)
  | th :: ths, i + 1 =>
    match stepAt logger t ths i with
    | .error c => .error c
    | .ok (t, ths) => .ok (t, th :: ths)

/-- An interleaving: the callers named by the schedule make their next
storage call, one after the other. -/
def runSchedule (logger : Logger) : Table → List Thread → List Nat →
    Except Crash (Table × List Thread)
  | t, ths, [] => .ok (t, ths)
  | t, ths, i :: is =>
    match stepAt logger t ths i with
    | .error c => .error c
    | .ok (t, ths) => runSchedule logger t ths is

/-- Every caller has returned. -/
def allReturned : List Thread → Bool
  | [] => true
  | .returned _ :: ths => allReturned ths
  | _ :: _ => false

/-- The schedule without overlap: caller `i`, then caller `i + 1`, ..., each
making both of its storage calls before the next starts. -/
def seqSchedule : Nat → Nat → List Nat
  | _, 0 => []
  | i, n + 1 => i :: i :: seqSchedule (i + 1) n

/-- The table with the count of every row for `w` set to `c`: what a
successful `Update` leaves. -/
def setCount (t : Table) (w : String) (c : Int) : Table :=
  t.map (fun r => if r.Word = w then { r with Count := c } else r)

/-- Callers that have returned a nil error: 1 for such a caller, else 0. -/
def okCount : Thread → Nat
  | .returned Option.none => 1
  | _ => 0

/-- Number of callers that have returned a nil error. -/
def returnedOk (ths : List Thread) : Nat := (ths.map okCount).sum

/-- The caller has seen the row of its word, or has returned. -/
def hasRead : Thread → Bool
  | .selected _ _ Option.none => true
  | .returned _ => true
  | _ => false

/-- What a caller of `WordUpsert` for the word `w` can hold while the count of
`w` is at most `b`: the count it read is between 1 and `b`. -/
def ThreadOk (w : String) (b : Nat) : Thread → Prop
  | .called word => word.Word = w
  | .selected word existingWord err =>
    word.Word = w ∧
      (err = some .ErrNoRows ∨
        (err = Option.none ∧ existingWord.Word = w ∧ 1 ≤ existingWord.Count ∧
          existingWord.Count ≤ (b : Int)))
  | .returned _ => True

/-- The invariant of concurrent callers of `WordUpsert` for the word `w` on a
store that was empty: the table is empty or holds the single row of `w`, with
a count between 1 and the number of callers that have returned a nil error. -/
structure Inv (w : String) (t : Table) (ths : List Thread) : Prop where
  table : t = [] ∨ ∃ c : Int, t = [⟨w, c⟩] ∧ 1 ≤ c ∧ c ≤ (returnedOk ths : Int)
  threads : ∀ th ∈ ths, ThreadOk w (returnedOk ths) th
  nonempty : (∃ th ∈ ths, hasRead th = true) → t ≠ []

/-- The words observed by a sequence of `WordUpsert` calls, in order. -/
def observed (calls : List (UpsertFaults × Word)) : List String :=
  calls.map (fun c => c.2.Word)

/-- The table holds, for every word `w`, no row when `n w = 0` and otherwise
the single row whose count is `n w` as an `int`. -/
def Tracks (t : Table) (n : String → Nat) : Prop :=
  ∀ w, rowsFor t w = if n w = 0 then [] else [⟨w, wrapInt (n w)⟩]

/-! ## Facts about the storage layer -/

theorem rowsFor_nil_iff (t : Table) (w : String) :
    rowsFor t w = [] ↔ ∀ r ∈ t, r.Word ≠ w := by
  simp [rowsFor, List.filter_eq_nil_iff]

theorem mem_rowsFor (t : Table) (w : String) (r : Word) :
    r ∈ rowsFor t w ↔ r ∈ t ∧ r.Word = w := by
  simp [rowsFor]

theorem rowsFor_nil (w : String) : rowsFor [] w = [] := rfl

theorem rowsFor_append (t u : Table) (w : String) :
    rowsFor (t ++ u) w = rowsFor t w ++ rowsFor u w := by
  simp [rowsFor]

theorem rowsFor_cons (a : Word) (t : Table) (w : String) :
    rowsFor (a :: t) w = if a.Word = w then a :: rowsFor t w else rowsFor t w := by
  by_cases h : a.Word = w <;> simp [rowsFor, List.filter_cons, h]

theorem keysUnique_cons (a : Word) (t : Table) :
    KeysUnique (a :: t) ↔ rowsFor t a.Word = [] ∧ KeysUnique t := by
  unfold KeysUnique
  rw [List.map_cons, List.nodup_cons, rowsFor_nil_iff]
  constructor
  · rintro ⟨h1, h2⟩
    refine ⟨fun r hr hw => h1 ?_, h2⟩
    exact List.mem_map.mpr ⟨r, hr, hw⟩
  · rintro ⟨h1, h2⟩
    refine ⟨fun hm => ?_, h2⟩
    obtain ⟨r, hr, hw⟩ := List.mem_map.mp hm
    exact h1 r hr hw

/-- Under the primary key, the rows matched for the word of a row are that row. -/
theorem rowsFor_of_mem {t : Table} (hu : KeysUnique t) {r : Word} (hr : r ∈ t) :
    rowsFor t r.Word = [r] := by
  induction t with
  | nil => cases hr
  | cons a t ih =>
    obtain ⟨ha, hu⟩ := (keysUnique_cons a t).mp hu
    rw [rowsFor_cons]
    rcases List.mem_cons.mp hr with rfl | hr
    · simp [ha]
    · have hne : a.Word ≠ r.Word := fun h => (rowsFor_nil_iff t a.Word).mp ha r hr h.symm
      simp [hne, ih hu hr]

theorem rowsFor_length_le_one {t : Table} (hu : KeysUnique t) (w : String) :
    (rowsFor t w).length ≤ 1 := by
  induction t with
  | nil => simp [rowsFor]
  | cons a t ih =>
    obtain ⟨ha, hu⟩ := (keysUnique_cons a t).mp hu
    rw [rowsFor_cons]
    by_cases h : a.Word = w
    · subst h; simp [ha]
    · simp [h, ih hu]

theorem keysUnique_of_rowsFor {t : Table} (h : ∀ w, (rowsFor t w).length ≤ 1) :
    KeysUnique t := by
  induction t with
  | nil => simp [KeysUnique]
  | cons a t ih =>
    rw [keysUnique_cons]
    have ha := h a.Word
    rw [rowsFor_cons] at ha
    simp only [if_true, List.length_cons] at ha
    refine ⟨List.length_eq_zero.mp (by omega), ih fun w => ?_⟩
    have hw := h w
    rw [rowsFor_cons] at hw
    split at hw
    · simp only [List.length_cons] at hw; omega
    · exact hw

theorem setCount_keys (t : Table) (w : String) (c : Int) :
    (setCount t w c).map (fun r => r.Word) = t.map (fun r => r.Word) := by
  induction t with
  | nil => rfl
  | cons a t ih =>
    simp only [setCount, List.map_cons] at ih ⊢
    rw [ih]
    by_cases h : a.Word = w <;> simp [h]

theorem keysUnique_setCount {t : Table} (hu : KeysUnique t) (w : String) (c : Int) :
    KeysUnique (setCount t w c) := by
  unfold KeysUnique at hu ⊢
  rw [setCount_keys]; exact hu

theorem rowsFor_setCount (t : Table) (w : String) (c : Int) (v : String) :
    rowsFor (setCount t w c) v =
      if v = w then (rowsFor t w).map (fun r => { r with Count := c }) else rowsFor t v := by
  induction t with
  | nil => simp [setCount, rowsFor]
  | cons a t ih =>
    have hc : setCount (a :: t) w c =
        (if a.Word = w then { a with Count := c } else a) :: setCount t w c := rfl
    rw [hc, rowsFor_cons, ih]
    by_cases hv : v = w
    · subst hv
      by_cases ha : a.Word = v
      · simp [ha, rowsFor_cons]
      · simp [ha, rowsFor_cons]
    · by_cases ha : a.Word = w
      · have hav : a.Word ≠ v := fun h => hv (h.symm.trans ha)
        simp [hv, ha, hav, rowsFor_cons, Ne.symm hv]
      · by_cases hav : a.Word = v
        · simp [hv, ha, hav, rowsFor_cons]
        · simp [hv, ha, hav, rowsFor_cons]

theorem keysUnique_append_single {t : Table} (hu : KeysUnique t) {r : Word}
    (hr : rowsFor t r.Word = []) : KeysUnique (t ++ [r]) := by
  apply keysUnique_of_rowsFor
  intro w
  rw [rowsFor_append, rowsFor_cons]
  by_cases h : r.Word = w
  · subst h
    have hnil : rowsFor [] r.Word = [] := rfl
    simp [hr, hnil]
  · have := rowsFor_length_le_one hu w
    simpa [h, rowsFor] using this

/-! ## Facts about `WordUpsert` and `FetchWord` -/

theorem Update_none (t : Table) (word : Word) :
    Update none t word =
      (setCount t word.Word word.Count, ((rowsFor t word.Word).length : Int), none) := rfl

/-- The four ways a call of `WordUpsert` can go. -/
theorem WordUpsert_cases (logger : Logger) (f : UpsertFaults) (t : Table) (word : Word) :
    (rowsFor t word.Word = [] ∧
      WordUpsert logger f t word = .ok (t ++ [⟨word.Word, 1⟩], none)) ∨
    (∃ r, rowsFor t word.Word = [r] ∧
      WordUpsert logger f t word =
        .ok (setCount t r.Word (wrapInt (r.Count + 1)), none)) ∨
    (∃ e, WordUpsert logger f t word = .ok (t, some e)) ∨
    (∃ c, WordUpsert logger f t word = .error c) := by
  obtain ⟨fs, fi, fu⟩ := f
  cases fs with
  | some m => right; right; left; simp [WordUpsert, SelectOne]
  | none =>
    rcases hrows : rowsFor t word.Word with _ | ⟨r, _ | ⟨r2, rest⟩⟩
    · cases fi with
      | some m => right; right; left; simp [WordUpsert, SelectOne, hrows, Insert]
      | none => left; exact ⟨rfl, by simp [WordUpsert, SelectOne, hrows, Insert]⟩
    · cases fu with
      | some m =>
        right; right; right
        simp [WordUpsert, SelectOne, hrows, Update, checkErr]
      | none =>
        right; left
        exact ⟨r, rfl, by simp [WordUpsert, SelectOne, hrows, Update_none, checkErr]⟩
    · right; right; left; simp [WordUpsert, SelectOne, hrows]

theorem WordUpsert_insert (logger : Logger) {t : Table} {word : Word}
    (h : rowsFor t word.Word = []) :
    WordUpsert logger UpsertFaults.none t word = .ok (t ++ [⟨word.Word, 1⟩], none) := by
  simp [WordUpsert, UpsertFaults.none, SelectOne, h, Insert]

theorem WordUpsert_update (logger : Logger) {t : Table} {word r : Word}
    (h : rowsFor t word.Word = [r]) :
    WordUpsert logger UpsertFaults.none t word =
      .ok (setCount t r.Word (wrapInt (r.Count + 1)), none) := by
  simp [WordUpsert, UpsertFaults.none, SelectOne, h, Update_none, checkErr]

theorem FetchWord_absent {t : Table} {w : String} (h : rowsFor t w = []) :
    FetchWord none t w = (emptyWord, none) := by
  simp [FetchWord, SelectOne, h]

theorem FetchWord_present {t : Table} {w : String} {r : Word} (h : rowsFor t w = [r]) :
    FetchWord none t w = (r, none) := by
  simp [FetchWord, SelectOne, h]

theorem wrapInt_of_range {v : Int} (h1 : minInt ≤ v) (h2 : v ≤ maxInt) : wrapInt v = v := by
  simp only [wrapInt, minInt, maxInt] at *
  omega

theorem wrapInt_add (a b : Int) : wrapInt (wrapInt a + b) = wrapInt (a + b) := by
  simp only [wrapInt]
  omega

theorem wrapInt_one : wrapInt 1 = 1 := by decide

theorem tracks_keysUnique {t : Table} {n : String → Nat} (h : Tracks t n) : KeysUnique t := by
  apply keysUnique_of_rowsFor
  intro w
  rw [h w]
  split <;> simp

/-- A successful `WordUpsert` counts one more observation of its word. -/
theorem tracks_WordUpsert {logger : Logger} {f : UpsertFaults} {t t' : Table} {word : Word}
    {n : String → Nat} (ht : Tracks t n)
    (h : WordUpsert logger f t word = .ok (t', none)) :
    Tracks t' (fun v => n v + if v = word.Word then 1 else 0) := by
  have hw := ht word.Word
  rcases WordUpsert_cases logger f t word with ⟨h0, he⟩ | ⟨r, h1, he⟩ | ⟨e, he⟩ | ⟨c, he⟩
  · rw [he] at h
    injection h with h; injection h with h
    subst h
    have hn : n word.Word = 0 := by
      by_contra hne
      rw [h0, if_neg hne] at hw
      cases hw
    intro v
    rw [rowsFor_append, rowsFor_cons]
    by_cases hv : v = word.Word
    · subst hv
      simp [h0, hn, wrapInt_one, rowsFor_nil]
    · have hv2 : ¬ word.Word = v := fun h => hv h.symm
      simp [hv, hv2, ht v, rowsFor_nil]
  · rw [he] at h
    injection h with h; injection h with h
    subst h
    have hn : n word.Word ≠ 0 := by
      intro hz
      rw [h1, if_pos hz] at hw
      cases hw
    rw [h1, if_neg hn] at hw
    injection hw with hr
    subst hr
    intro v
    rw [rowsFor_setCount]
    by_cases hv : v = word.Word
    · subst hv
      simp only [if_true, h1, List.map_cons, List.map_nil]
      have hcast : ((n word.Word + 1 : Nat) : Int) = (n word.Word : Int) + 1 := by
        push_cast; rfl
      simp [hcast, wrapInt_add]
    · simp [hv, ht v]
  · rw [he] at h
    injection h with h; injection h with _ h
    cases h
  · rw [he] at h
    cases h

theorem upsertAll_cons_some {logger : Logger} {t t' : Table} {f : UpsertFaults} {word : Word}
    {cs : List (UpsertFaults × Word)} (h : upsertAll logger t ((f, word) :: cs) = some t') :
    ∃ t1, WordUpsert logger f t word = .ok (t1, none) ∧ upsertAll logger t1 cs = some t' := by
  simp only [upsertAll] at h
  split at h
  · rename_i t1 heq
    exact ⟨t1, heq, h⟩
  · cases h

/-- After a sequence of successful `WordUpsert` calls the table counts the
observations of every word. -/
theorem tracks_upsertAll (logger : Logger) :
    ∀ (calls : List (UpsertFaults × Word)) (t t' : Table) (n : String → Nat),
      Tracks t n → upsertAll logger t calls = some t' →
      Tracks t' (fun v => n v + (observed calls).count v) := by
  intro calls
  induction calls with
  | nil =>
    intro t t' n ht h
    simp only [upsertAll, Option.some.injEq] at h
    subst h
    simpa [observed] using ht
  | cons c cs ih =>
    obtain ⟨f, word⟩ := c
    intro t t' n ht h
    obtain ⟨t1, h1, h2⟩ := upsertAll_cons_some h
    have := ih t1 t' _ (tracks_WordUpsert ht h1) h2
    intro v
    have hv := this v
    have hc : (observed ((f, word) :: cs)).count v =
        (if v = word.Word then 1 else 0) + (observed cs).count v := by
      simp only [observed, List.map_cons, List.count_cons]
      by_cases hv : v = word.Word
      · subst hv; simp; omega
      · have hv2 : ¬ word.Word = v := fun h => hv h.symm
        simp [hv, hv2]
    simp only [hc]
    simpa [Nat.add_assoc] using hv

theorem tracks_nil : Tracks [] (fun _ => 0) := by
  intro w
  simp [rowsFor_nil]

/-- With no storage failure, `WordUpsert` succeeds on a table that counts. -/
theorem WordUpsert_succeeds (logger : Logger) {t : Table} {n : String → Nat} (ht : Tracks t n)
    (word : Word) : ∃ t', WordUpsert logger UpsertFaults.none t word = .ok (t', none) := by
  have hw := ht word.Word
  by_cases hn : n word.Word = 0
  · rw [if_pos hn] at hw
    exact ⟨_, WordUpsert_insert logger hw⟩
  · rw [if_neg hn] at hw
    exact ⟨_, WordUpsert_update logger hw⟩

theorem upsertAll_succeeds (logger : Logger) :
    ∀ (calls : List (UpsertFaults × Word)) (t : Table) (n : String → Nat),
      Tracks t n → (∀ c ∈ calls, c.1 = UpsertFaults.none) →
      ∃ t', upsertAll logger t calls = some t' := by
  intro calls
  induction calls with
  | nil => intro t n _ _; exact ⟨t, rfl⟩
  | cons c cs ih =>
    obtain ⟨f, word⟩ := c
    intro t n ht hf
    have hf0 : f = UpsertFaults.none := hf (f, word) (List.mem_cons_self _ _)
    subst hf0
    obtain ⟨t1, h1⟩ := WordUpsert_succeeds logger ht word
    obtain ⟨t2, h2⟩ := ih t1 _ (tracks_WordUpsert ht h1)
      (fun c hc => hf c (List.mem_cons_of_mem _ hc))
    refine ⟨t2, ?_⟩
    simp only [upsertAll, h1]
    exact h2

/-- Observing the same word `n` more times, without failure, on the table
that holds only this word. -/
theorem upsertAll_replicate (logger : Logger) (w : String) (x : Int) :
    ∀ (n : Nat) (c : Int),
      upsertAll logger [⟨w, wrapInt c⟩] (List.replicate n (UpsertFaults.none, ⟨w, x⟩)) =
        some [⟨w, wrapInt (c + n)⟩] := by
  intro n
  induction n with
  | zero => intro c; simp [upsertAll]
  | succ n ih =>
    intro c
    have hrow : rowsFor [(⟨w, wrapInt c⟩ : Word)] (⟨w, x⟩ : Word).Word = [⟨w, wrapInt c⟩] := by
      simp [rowsFor]
    have hstep := WordUpsert_update logger hrow
    have hset : setCount [(⟨w, wrapInt c⟩ : Word)] w (wrapInt (wrapInt c + 1)) =
        [⟨w, wrapInt (c + 1)⟩] := by
      simp [setCount, wrapInt_add]
    rw [List.replicate_succ]
    simp only [upsertAll, hstep, hset]
    rw [ih (c + 1)]
    have : c + 1 + (n : Int) = c + ((n + 1 : Nat) : Int) := by push_cast; ring
    rw [this]

/-- Observing the same word `n ≥ 1` times, without failure, on the empty
table leaves the single row whose count is `n` as an `int`. -/
theorem upsertAll_replicate_nil (logger : Logger) (w : String) (x : Int) (n : Nat)
    (hn : 0 < n) :
    upsertAll logger [] (List.replicate n (UpsertFaults.none, ⟨w, x⟩)) =
      some [⟨w, wrapInt n⟩] := by
  obtain ⟨k, rfl⟩ : ∃ k, n = k + 1 := ⟨n - 1, by omega⟩
  have hrow : rowsFor [] (⟨w, x⟩ : Word).Word = [] := rfl
  have hstep := WordUpsert_insert logger hrow
  rw [List.replicate_succ]
  simp only [upsertAll, hstep, List.nil_append]
  have h1 := upsertAll_replicate logger w x k 1
  rw [wrapInt_one] at h1
  rw [h1]
  have : (1 : Int) + (k : Int) = ((k + 1 : Nat) : Int) := by push_cast; ring
  rw [this]

theorem wrapInt_two_pow : wrapInt ((2 ^ 63 : Nat) : Int) = -9223372036854775808 := by
  decide

/-! ## Invariants of call sequences -/

theorem keysUnique_WordUpsert {logger : Logger} {f : UpsertFaults} {t t' : Table}
    {word : Word} {err : GoError} (hu : KeysUnique t)
    (h : WordUpsert logger f t word = .ok (t', err)) : KeysUnique t' := by
  rcases WordUpsert_cases logger f t word with ⟨h0, he⟩ | ⟨r, _, he⟩ | ⟨e, he⟩ | ⟨c, he⟩
  · rw [he] at h
    injection h with h; injection h with h
    subst h
    exact keysUnique_append_single hu h0
  · rw [he] at h
    injection h with h; injection h with h
    subst h
    exact keysUnique_setCount hu _ _
  · rw [he] at h
    injection h with h; injection h with h
    subst h
    exact hu
  · rw [he] at h
    cases h

theorem keysUnique_run (logger : Logger) :
    ∀ (calls : List Call) (t : Table), KeysUnique t → KeysUnique (run logger t calls) := by
  intro calls
  induction calls with
  | nil => intro t hu; exact hu
  | cons c cs ih =>
    intro t hu
    simp only [run]
    cases c with
    | upsert f word =>
      simp only [step]
      rcases hres : WordUpsert logger f t word with c | ⟨t1, err⟩
      · exact hu
      · exact ih t1 (keysUnique_WordUpsert hu hres)
    | fetchWord fault w => exact ih t hu
    | fetchWords fault =>
      simp only [step]
      rcases FetchWords logger fault t with c | res
      · exact hu
      · exact ih t hu

theorem mem_setCount {t : Table} {w : String} {c : Int} {x : Word}
    (h : x ∈ setCount t w c) : x ∈ t ∨ x.Count = c := by
  obtain ⟨a, ha, rfl⟩ := List.mem_map.mp h
  by_cases hw : a.Word = w
  · right; simp [hw]
  · left; simpa [hw] using ha

theorem setCount_length (t : Table) (w : String) (c : Int) :
    (setCount t w c).length = t.length := by
  simp [setCount]

/-- After a `WordUpsert`, counts that lay between 1 and `k` lie between 1
and `k + 1`. -/
theorem counts_WordUpsert {logger : Logger} {f : UpsertFaults} {t t' : Table} {word : Word}
    {err : GoError} {k : Nat} (hk : k + 1 < 2 ^ 63)
    (hinv : ∀ r ∈ t, 1 ≤ r.Count ∧ r.Count ≤ (k : Int))
    (h : WordUpsert logger f t word = .ok (t', err)) :
    ∀ r ∈ t', 1 ≤ r.Count ∧ r.Count ≤ ((k + 1 : Nat) : Int) := by
  have hmono : ∀ r ∈ t, 1 ≤ r.Count ∧ r.Count ≤ ((k + 1 : Nat) : Int) := by
    intro r hr
    have := hinv r hr
    push_cast
    omega
  rcases WordUpsert_cases logger f t word with ⟨_, he⟩ | ⟨r0, h1, he⟩ | ⟨e, he⟩ | ⟨c, he⟩
  · rw [he] at h
    injection h with h; injection h with h
    subst h
    intro r hr
    rcases List.mem_append.mp hr with hr | hr
    · exact hmono r hr
    · rw [List.mem_singleton] at hr
      subst hr
      have hk1 : (1 : Int) ≤ ((k + 1 : Nat) : Int) := by push_cast; omega
      exact ⟨le_refl _, hk1⟩
  · rw [he] at h
    injection h with h; injection h with h
    subst h
    have hr0 : r0 ∈ t := by
      have : r0 ∈ rowsFor t word.Word := by rw [h1]; exact List.mem_singleton.mpr rfl
      exact ((mem_rowsFor t word.Word r0).mp this).1
    have hb := hinv r0 hr0
    have hwrap : wrapInt (r0.Count + 1) = r0.Count + 1 := by
      apply wrapInt_of_range
      · simp only [minInt]; omega
      · simp only [maxInt]; omega
    intro r hr
    rcases mem_setCount hr with hr | hr
    · exact hmono r hr
    · rw [hr, hwrap]
      push_cast
      omega
  · rw [he] at h
    injection h with h; injection h with h
    subst h
    exact hmono
  · rw [he] at h
    cases h

theorem counts_run (logger : Logger) :
    ∀ (calls : List Call) (t : Table) (k : Nat), k + upserts calls < 2 ^ 63 →
      (∀ r ∈ t, 1 ≤ r.Count ∧ r.Count ≤ (k : Int)) →
      ∀ r ∈ run logger t calls, 1 ≤ r.Count ∧ r.Count ≤ ((k + upserts calls : Nat) : Int) := by
  intro calls
  induction calls with
  | nil => intro t k _ hinv; simpa [run, upserts] using hinv
  | cons c cs ih =>
    intro t k hk hinv
    have hmono : ∀ (j : Nat), ∀ r ∈ t, 1 ≤ r.Count ∧ r.Count ≤ ((k + j : Nat) : Int) := by
      intro j r hr
      have := hinv r hr
      push_cast
      omega
    simp only [run]
    cases c with
    | upsert f word =>
      simp only [step, upserts] at hk ⊢
      rcases hres : WordUpsert logger f t word with c | ⟨t1, err⟩
      · exact hmono _
      · have h1 := counts_WordUpsert (by omega) hinv hres
        have := ih t1 (k + 1) (by omega) h1
        have heq : k + 1 + upserts cs = k + (upserts cs + 1) := by omega
        rw [heq] at this
        exact this
    | fetchWord fault w => exact ih t k hk hinv
    | fetchWords fault =>
      simp only [step, upserts] at hk ⊢
      rcases FetchWords logger fault t with c | res
      · exact hmono _
      · exact ih t k hk hinv

theorem run_of_upsertAll (logger : Logger) :
    ∀ (cs : List (UpsertFaults × Word)) (t t' : Table), upsertAll logger t cs = some t' →
      run logger t (cs.map (fun c => Call.upsert c.1 c.2)) = t' := by
  intro cs
  induction cs with
  | nil =>
    intro t t' h
    simp only [upsertAll, Option.some.injEq] at h
    simpa [run] using h
  | cons c cs ih =>
    obtain ⟨f, word⟩ := c
    intro t t' h
    obtain ⟨t1, h1, h2⟩ := upsertAll_cons_some h
    simp only [List.map_cons, run, step, h1]
    exact ih t1 t' h2

/-! ## Interleavings -/

/-- The function `WordUpsert` is its read followed by its write. -/
theorem WordUpsert_eq_read_write (logger : Logger) (f : UpsertFaults) (t : Table)
    (word : Word) :
    WordUpsert logger f t word =
      upsertWrite logger f t word (upsertRead f t word).1 (upsertRead f t word).2 := rfl

theorem stepThread_ok (logger : Logger) (t : Table) (th : Thread) :
    ∃ t' th', stepThread logger t th = .ok (t', th') := by
  cases th with
  | called word => exact ⟨_, _, rfl⟩
  | returned err => exact ⟨_, _, rfl⟩
  | selected word ex err =>
    rcases err with _ | e
    · simp [stepThread, upsertWrite, UpsertFaults.none, Update_none, checkErr]
    · cases e with
      | ErrNoRows =>
        by_cases h : rowsFor t word.Word = [] <;>
          simp [stepThread, upsertWrite, UpsertFaults.none, Insert, h]
      | failure m => simp [stepThread, upsertWrite]

theorem stepAt_append (logger : Logger) (t : Table) (th : Thread) (post : List Thread) :
    ∀ pre : List Thread, stepAt logger t (pre ++ th :: post) pre.length =
      match stepThread logger t th with
      | .error c => .error c
      | .ok (t', th') => .ok (t', pre ++ th' :: post) := by
  intro pre
  induction pre with
  | nil => simp [stepAt]
  | cons p pre ih =>
    have hstep : stepAt logger t (p :: (pre ++ th :: post)) (pre.length + 1) =
        match stepAt logger t (pre ++ th :: post) pre.length with
        | .error c => .error c
        | .ok (t', ths) => .ok (t', p :: ths) := rfl
    rw [List.cons_append, List.length_cons, hstep, ih]
    rcases stepThread logger t th with c | ⟨t', th'⟩ <;> rfl

theorem stepAt_ge (logger : Logger) (t : Table) :
    ∀ (ths : List Thread) (i : Nat), ths.length ≤ i → stepAt logger t ths i = .ok (t, ths) := by
  intro ths
  induction ths with
  | nil => intro i _; rfl
  | cons th ths ih =>
    intro i hi
    cases i with
    | zero => simp at hi
    | succ i =>
      simp only [List.length_cons, Nat.add_le_add_iff_right] at hi
      simp [stepAt, ih i hi]

theorem split_at : ∀ (ths : List Thread) (i : Nat), i < ths.length →
    ∃ pre th post, ths = pre ++ th :: post ∧ pre.length = i := by
  intro ths
  induction ths with
  | nil => intro i hi; simp at hi
  | cons th ths ih =>
    intro i hi
    cases i with
    | zero => exact ⟨[], th, ths, rfl, rfl⟩
    | succ i =>
      simp only [List.length_cons, Nat.add_lt_add_iff_right] at hi
      obtain ⟨pre, th', post, he, hl⟩ := ih i hi
      exact ⟨th :: pre, th', post, by rw [he]; rfl, by simp [hl]⟩

theorem returnedOk_split (pre : List Thread) (th : Thread) (post : List Thread) :
    returnedOk (pre ++ th :: post) = returnedOk pre + okCount th + returnedOk post := by
  simp [returnedOk, Nat.add_assoc]

theorem okCount_le_one (th : Thread) : okCount th ≤ 1 := by
  unfold okCount
  split <;> omega

theorem returnedOk_le_length : ∀ ths : List Thread, returnedOk ths ≤ ths.length := by
  intro ths
  induction ths with
  | nil => simp [returnedOk]
  | cons th ths ih =>
    have := okCount_le_one th
    simp only [returnedOk, List.map_cons, List.sum_cons, List.length_cons] at ih ⊢
    omega

theorem threadOk_mono {w : String} {b b' : Nat} (hb : b ≤ b') {th : Thread}
    (h : ThreadOk w b th) : ThreadOk w b' th := by
  cases th with
  | called word => exact h
  | returned err => trivial
  | selected word ex err =>
    obtain ⟨h1, h2⟩ := h
    refine ⟨h1, ?_⟩
    rcases h2 with h2 | ⟨h2, h3, h4, h5⟩
    · exact Or.inl h2
    · exact Or.inr ⟨h2, h3, h4, by omega⟩

/-- Rebuilding the invariant after one caller has moved from `th` to `th'`. -/
theorem inv_replace {w : String} {t t' : Table} {pre post : List Thread} {th th' : Thread}
    (hinv : Inv w t (pre ++ th :: post))
    (hcount : returnedOk (pre ++ th :: post) ≤ returnedOk (pre ++ th' :: post))
    (htable : t' = [] ∨
      ∃ c : Int, t' = [⟨w, c⟩] ∧ 1 ≤ c ∧ c ≤ (returnedOk (pre ++ th' :: post) : Int))
    (hth : ThreadOk w (returnedOk (pre ++ th' :: post)) th')
    (hne : t' ≠ [] ∨ (t' = t ∧ (hasRead th' = true → hasRead th = true))) :
    Inv w t' (pre ++ th' :: post) := by
  refine ⟨htable, ?_, ?_⟩
  · intro x hx
    rcases List.mem_append.mp hx with hx | hx
    · exact threadOk_mono hcount (hinv.threads x (List.mem_append_left _ hx))
    · rcases List.mem_cons.mp hx with rfl | hx
      · exact hth
      · exact threadOk_mono hcount
          (hinv.threads x (List.mem_append_right _ (List.mem_cons_of_mem _ hx)))
  · rintro ⟨x, hx, hr⟩
    rcases hne with hne | ⟨rfl, hne⟩
    · exact hne
    · apply hinv.nonempty
      rcases List.mem_append.mp hx with hx | hx
      · exact ⟨x, List.mem_append_left _ hx, hr⟩
      · rcases List.mem_cons.mp hx with rfl | hx
        · exact ⟨th, by simp, hne hr⟩
        · exact ⟨x, List.mem_append_right _ (List.mem_cons_of_mem _ hx), hr⟩

/-- One storage call of one caller keeps the invariant, and does not end the
process. -/
theorem inv_step {w : String} (logger : Logger) {t : Table} {pre post : List Thread}
    {th : Thread} (hinv : Inv w t (pre ++ th :: post))
    (hlen : (pre ++ th :: post).length < 2 ^ 63) :
    ∃ t' th', stepThread logger t th = .ok (t', th') ∧ Inv w t' (pre ++ th' :: post) := by
  have hth : ThreadOk w (returnedOk (pre ++ th :: post)) th := hinv.threads th (by simp)
  cases th with
  | returned err => exact ⟨t, .returned err, rfl, hinv⟩
  | called word =>
    have hw : word.Word = w := hth
    subst hw
    rcases hinv.table with ht | ⟨c, ht, hc1, hc2⟩
    · subst ht
      refine ⟨[], .selected word emptyWord (some .ErrNoRows), ?_, ?_⟩
      · simp [stepThread, upsertRead, SelectOne, UpsertFaults.none, rowsFor_nil]
      · have hcnt : returnedOk (pre ++ Thread.selected word emptyWord (some .ErrNoRows) :: post) =
            returnedOk (pre ++ Thread.called word :: post) := by
          simp [returnedOk_split, okCount]
        refine inv_replace hinv (le_of_eq hcnt.symm) (Or.inl rfl) ⟨rfl, Or.inl rfl⟩
          (Or.inr ⟨rfl, fun h => by simp [hasRead] at h⟩)
    · subst ht
      refine ⟨[⟨word.Word, c⟩], .selected word ⟨word.Word, c⟩ none, ?_, ?_⟩
      · simp [stepThread, upsertRead, SelectOne, UpsertFaults.none, rowsFor]
      · have hcnt : returnedOk (pre ++ Thread.selected word ⟨word.Word, c⟩ none :: post) =
            returnedOk (pre ++ Thread.called word :: post) := by
          simp [returnedOk_split, okCount]
        refine inv_replace hinv (le_of_eq hcnt.symm) (Or.inr ⟨c, rfl, hc1, ?_⟩)
          ⟨rfl, Or.inr ⟨rfl, rfl, hc1, ?_⟩⟩ (Or.inl (by simp))
        · rw [hcnt]; exact hc2
        · rw [hcnt]; exact hc2
  | selected word ex err =>
    obtain ⟨hw, herr⟩ := hth
    subst hw
    have hlt : returnedOk (pre ++ Thread.selected word ex err :: post) + 1 ≤
        (pre ++ Thread.selected word ex err :: post).length := by
      have h1 := returnedOk_le_length pre
      have h2 := returnedOk_le_length post
      simp only [returnedOk_split, okCount, List.length_append, List.length_cons]
      omega
    have hcnt : returnedOk (pre ++ Thread.returned none :: post) =
        returnedOk (pre ++ Thread.selected word ex err :: post) + 1 := by
      simp only [returnedOk_split, okCount]
      omega
    rcases herr with rfl | ⟨rfl, hexw, hex1, hex2⟩
    · rcases hinv.table with ht | ⟨c, ht, hc1, hc2⟩
      · subst ht
        refine ⟨[⟨word.Word, 1⟩], .returned none, ?_, ?_⟩
        · simp [stepThread, upsertWrite, UpsertFaults.none, Insert, rowsFor_nil]
        · refine inv_replace hinv (by omega) (Or.inr ⟨1, rfl, le_refl _, ?_⟩) trivial
            (Or.inl (by simp))
          rw [hcnt]; push_cast; omega
      · subst ht
        refine ⟨[⟨word.Word, c⟩],
          .returned (some (.failure "UNIQUE constraint failed: words.word")), ?_, ?_⟩
        · simp [stepThread, upsertWrite, UpsertFaults.none, Insert, rowsFor]
        · have hcnt2 : returnedOk (pre ++ Thread.returned
              (some (.failure "UNIQUE constraint failed: words.word")) :: post) =
              returnedOk (pre ++ Thread.selected word ex (some .ErrNoRows) :: post) := by
            simp [returnedOk_split, okCount]
          refine inv_replace hinv (le_of_eq hcnt2.symm) (Or.inr ⟨c, rfl, hc1, ?_⟩) trivial
            (Or.inl (by simp))
          rw [hcnt2]; exact hc2
    · have hne : t ≠ [] :=
        hinv.nonempty ⟨Thread.selected word ex none, by simp, rfl⟩
      rcases hinv.table with ht | ⟨c, ht, hc1, hc2⟩
      · exact absurd ht hne
      · subst ht
        have hwrap : wrapInt (ex.Count + 1) = ex.Count + 1 := by
          apply wrapInt_of_range
          · simp only [minInt]; omega
          · simp only [maxInt]; omega
        refine ⟨[⟨word.Word, ex.Count + 1⟩], .returned none, ?_, ?_⟩
        · simp [stepThread, upsertWrite, UpsertFaults.none, Update_none, checkErr, setCount,
            hexw, hwrap]
        · refine inv_replace hinv (by omega) (Or.inr ⟨ex.Count + 1, rfl, by omega, ?_⟩) trivial
            (Or.inl (by simp))
          rw [hcnt]; push_cast; omega

theorem inv_stepAt {w : String} (logger : Logger) {t : Table} {ths : List Thread}
    (hinv : Inv w t ths) (hlen : ths.length < 2 ^ 63) (i : Nat) :
    ∃ t' ths', stepAt logger t ths i = .ok (t', ths') ∧ Inv w t' ths' ∧
      ths'.length = ths.length := by
  by_cases hi : i < ths.length
  · obtain ⟨pre, th, post, rfl, rfl⟩ := split_at ths i hi
    obtain ⟨t', th', hs, hinv'⟩ := inv_step logger hinv hlen
    refine ⟨t', pre ++ th' :: post, ?_, hinv', by simp⟩
    rw [stepAt_append, hs]
  · exact ⟨t, ths, stepAt_ge logger t ths i (by omega), hinv, rfl⟩

/-- Every interleaving runs to its end and keeps the invariant. -/
theorem inv_runSchedule {w : String} (logger : Logger) :
    ∀ (sched : List Nat) (t : Table) (ths : List Thread), Inv w t ths → ths.length < 2 ^ 63 →
      ∃ t' ths', runSchedule logger t ths sched = .ok (t', ths') ∧ Inv w t' ths' ∧
        ths'.length = ths.length := by
  intro sched
  induction sched with
  | nil => intro t ths hinv _; exact ⟨t, ths, rfl, hinv, rfl⟩
  | cons i is ih =>
    intro t ths hinv hlen
    obtain ⟨t1, ths1, hs, hinv1, hl1⟩ := inv_stepAt logger hinv hlen i
    obtain ⟨t2, ths2, hr, hinv2, hl2⟩ := ih t1 ths1 hinv1 (by omega)
    refine ⟨t2, ths2, ?_, hinv2, by omega⟩
    simp only [runSchedule, hs]
    exact hr

theorem inv_start {w : String} (args : List Word) (hw : ∀ a ∈ args, a.Word = w) :
    Inv w [] (args.map Thread.called) := by
  refine ⟨Or.inl rfl, ?_, ?_⟩
  · intro th hth
    obtain ⟨a, ha, rfl⟩ := List.mem_map.mp hth
    exact hw a ha
  · rintro ⟨th, hth, hr⟩
    obtain ⟨a, ha, rfl⟩ := List.mem_map.mp hth
    simp [hasRead] at hr

theorem hasRead_of_allReturned : ∀ ths : List Thread, allReturned ths = true → ths ≠ [] →
    ∃ th ∈ ths, hasRead th = true := by
  intro ths hall hne
  cases ths with
  | nil => exact absurd rfl hne
  | cons th ths =>
    cases th with
    | returned err => exact ⟨.returned err, by simp, rfl⟩
    | called word => simp [allReturned] at hall
    | selected word ex err => simp [allReturned] at hall

/-- Without overlap the callers do what the same calls do in sequence. -/
theorem runSchedule_seq (logger : Logger) :
    ∀ (rest : List Word) (pre : List Thread) (t t' : Table),
      upsertAll logger t (rest.map (fun a => (UpsertFaults.none, a))) = some t' →
      runSchedule logger t (pre ++ rest.map Thread.called)
          (seqSchedule pre.length rest.length) =
        .ok (t', pre ++ rest.map (fun _ => Thread.returned none)) := by
  intro rest
  induction rest with
  | nil =>
    intro pre t t' h
    simp only [List.map_nil, upsertAll, Option.some.injEq] at h
    subst h
    rfl
  | cons a rest ih =>
    intro pre t t' h
    rw [List.map_cons] at h
    obtain ⟨t1, h1, h2⟩ := upsertAll_cons_some h
    have hread : stepThread logger t (.called a) =
        .ok (t, .selected a (upsertRead UpsertFaults.none t a).1
          (upsertRead UpsertFaults.none t a).2) := rfl
    have hwrite : stepThread logger t (.selected a (upsertRead UpsertFaults.none t a).1
          (upsertRead UpsertFaults.none t a).2) = .ok (t1, .returned none) := by
      rw [WordUpsert_eq_read_write] at h1
      simp only [stepThread, h1]
    have hih := ih (pre ++ [Thread.returned none]) t1 t' h2
    simp only [List.length_append, List.length_singleton, List.append_assoc,
      List.singleton_append] at hih
    simp only [List.map_cons, List.length_cons, seqSchedule, runSchedule, stepAt_append,
      hread, hwrite]
    exact hih

/-- The row left by successful calls for one word on the empty store. -/
theorem rowsFor_upsertAll_same_word {logger : Logger} {w : String}
    {calls : List (UpsertFaults × Word)} {t : Table} (hw : ∀ c ∈ calls, c.2.Word = w)
    (h1 : 1 ≤ calls.length) (hN : calls.length < 2 ^ 63)
    (h : upsertAll logger [] calls = some t) :
    rowsFor t w = [⟨w, (calls.length : Int)⟩] := by
  have ht := tracks_upsertAll logger calls [] t _ tracks_nil h w
  have hc : (observed calls).count w = calls.length := by
    have : (observed calls).count w = (observed calls).length := by
      rw [List.count_eq_length]
      intro b hb
      obtain ⟨c, hc, rfl⟩ := List.mem_map.mp hb
      exact (hw c hc).symm
    rw [this, observed, List.length_map]
  simp only [Nat.zero_add, hc] at ht
  rw [if_neg (by omega)] at ht
  have hwrap : wrapInt (calls.length : Int) = (calls.length : Int) := by
    apply wrapInt_of_range
    · simp only [minInt]; omega
    · simp only [maxInt]; omega
  rw [hwrap] at ht
  exact ht

/-! ## The claims -/

/-- C1, as stated, fails: on a store whose row for `a` holds the largest `int`,
`WordUpsert` returns no error and `FetchWord` then returns the smallest `int`,
not the count plus one. -/
theorem WordUpsert_wraps_at_maxInt :
    KeysUnique [⟨"a", 9223372036854775807⟩] ∧
    WordUpsert (some "[words] ") UpsertFaults.none [⟨"a", 9223372036854775807⟩] ⟨"a", 0⟩ =
      .ok ([⟨"a", -9223372036854775808⟩], none) ∧
    FetchWord none [⟨"a", -9223372036854775808⟩] "a" = (⟨"a", -9223372036854775808⟩, none) ∧
    (FetchWord none [⟨"a", -9223372036854775808⟩] "a").1.Count ≠ 9223372036854775807 + 1 := by
  decide

/-- C1 (amended): with no persistence failure, on a store that respects the
primary key and for a `Word` argument with any `Count`: if the store has no row
for `word.Word`, `WordUpsert` returns no error and `FetchWord(word.Word)` then
returns that word with `Count = 1`; if it has a row with count `c`, an `int`
other than the largest one, `WordUpsert` returns no error and
`FetchWord(word.Word)` then returns `Count = c + 1`. -/
theorem WordUpsert_then_FetchWord (logger : Logger) (t : Table) (word : Word)
    (hu : KeysUnique t) :
    ((∀ r ∈ t, r.Word ≠ word.Word) →
      ∃ t', WordUpsert logger UpsertFaults.none t word = .ok (t', none) ∧
        FetchWord none t' word.Word = (⟨word.Word, 1⟩, none)) ∧
    (∀ c : Int, ⟨word.Word, c⟩ ∈ t → minInt ≤ c → c < maxInt →
      ∃ t', WordUpsert logger UpsertFaults.none t word = .ok (t', none) ∧
        FetchWord none t' word.Word = (⟨word.Word, c + 1⟩, none)) := by
  constructor
  · intro habs
    have h0 := (rowsFor_nil_iff t word.Word).mpr habs
    refine ⟨_, WordUpsert_insert logger h0, FetchWord_present ?_⟩
    rw [rowsFor_append, h0, rowsFor_cons]
    simp [rowsFor]
  · intro c hmem hlo hhi
    have h1 : rowsFor t word.Word = [⟨word.Word, c⟩] := rowsFor_of_mem hu hmem
    refine ⟨_, WordUpsert_update logger h1, FetchWord_present ?_⟩
    have hw : wrapInt (c + 1) = c + 1 :=
      wrapInt_of_range (by simp only [minInt] at *; omega) (by simp only [maxInt] at *; omega)
    rw [rowsFor_setCount, if_pos rfl, h1, hw]
    rfl

/-- C1 (amended), at the store `{a: 4}`: a first `b` gets count 1, another `a`
makes its count 5. -/
theorem WordUpsert_then_FetchWord_witness :
    KeysUnique [⟨"a", 4⟩] ∧
    (∃ t', WordUpsert none UpsertFaults.none [⟨"a", 4⟩] ⟨"b", 99⟩ = .ok (t', none) ∧
      FetchWord none t' "b" = (⟨"b", 1⟩, none)) ∧
    (∃ t', WordUpsert none UpsertFaults.none [⟨"a", 4⟩] ⟨"a", 99⟩ = .ok (t', none) ∧
      FetchWord none t' "a" = (⟨"a", 4 + 1⟩, none)) :=
  ⟨by decide,
    (WordUpsert_then_FetchWord none [⟨"a", 4⟩] ⟨"b", 99⟩ (by decide)).1 (by decide),
    (WordUpsert_then_FetchWord none [⟨"a", 4⟩] ⟨"a", 99⟩ (by decide)).2 4
      (by decide) (by decide) (by decide)⟩

/-- C4: when the store has no row for `w` (and the storage layer reports no
failure), `FetchWord(w)` returns the zero-value `Word` and a nil error; and
whatever the store, the word and the failure reported, the error `FetchWord`
returns is never `sql.ErrNoRows`. -/
theorem FetchWord_absent_is_not_an_error (t : Table) (w : String)
    (h : ∀ r ∈ t, r.Word ≠ w) :
    FetchWord none t w = (emptyWord, none) ∧
    ∀ (fault : Option String) (t' : Table) (w' : String),
      (FetchWord fault t' w').2 ≠ some DbError.ErrNoRows := by
  refine ⟨FetchWord_absent ((rowsFor_nil_iff t w).mpr h), ?_⟩
  intro fault t' w'
  cases fault with
  | some m => simp [FetchWord, SelectOne]
  | none =>
    rcases hrows : rowsFor t' w' with _ | ⟨r, _ | ⟨r2, rest⟩⟩ <;>
      simp [FetchWord, SelectOne, hrows]

/-- C4 at the store `{a: 2}` and the word `b`. -/
theorem FetchWord_absent_is_not_an_error_witness :
    (∀ r ∈ ([⟨"a", 2⟩] : Table), r.Word ≠ "b") ∧
    FetchWord none [⟨"a", 2⟩] "b" = (emptyWord, none) :=
  ⟨by decide, (FetchWord_absent_is_not_an_error [⟨"a", 2⟩] "b" (by decide)).1⟩

/-- C6, as stated, fails: when the storage layer fails the select of
`FetchWords`, the call does not return the failure; `checkErr` ends the
process with `logger.Fatalln` and exit status 1. -/
theorem FetchWords_failure_ends_process :
    FetchWords (some "[words] ") (some "disk I/O error") [⟨"a", 1⟩] =
      .error (.exit 1 "[words] " "FetchWords : select failed" (.failure "disk I/O error")) := by
  decide

/-- C6 (amended): a failure other than "no matching row" is returned to the
caller as the error, with the table unchanged and the process running, when it
hits the `SelectOne` or the `Insert` of `WordUpsert` or the `SelectOne` of
`FetchWord`; when it hits the `Update` of `WordUpsert`, the `Select` of
`FetchWords`, or the `sql.Open` or the `CreateTablesIfNotExists` of `initDb`,
`checkErr` ends the process through `logger.Fatalln`. -/
theorem failure_returned_or_fatal (logger : Logger) (m : String) :
    (∀ (fi fu : Option String) (t : Table) (word : Word),
      WordUpsert logger ⟨some m, fi, fu⟩ t word = .ok (t, some (.failure m))) ∧
    (∀ (fu : Option String) (t : Table) (word : Word), (∀ r ∈ t, r.Word ≠ word.Word) →
      WordUpsert logger ⟨none, some m, fu⟩ t word = .ok (t, some (.failure m))) ∧
    (∀ (t : Table) (w : String), FetchWord (some m) t w = (emptyWord, some (.failure m))) ∧
    (∀ (fi : Option String) (t : Table) (word : Word) (c : Int),
      KeysUnique t → ⟨word.Word, c⟩ ∈ t →
      WordUpsert logger ⟨none, fi, some m⟩ t word =
        .error (Fatalln logger "Update failed" (.failure m))) ∧
    (∀ t : Table, FetchWords logger (some m) t =
        .error (Fatalln logger "FetchWords : select failed" (.failure m))) ∧
    (∀ (ft fc : Option String) (file : Option Table),
      initDb logger ⟨some m, ft, fc⟩ file =
        .error (Fatalln logger "sql.Open failed" (.failure m))) ∧
    (∀ (ft : Option String) (file : Option Table),
      initDb logger ⟨none, ft, some m⟩ file =
        .error (Fatalln logger "Create tables failed" (.failure m))) := by
  refine ⟨?_, ?_, ?_, ?_, ?_, ?_, ?_⟩
  · intro fi fu t word
    simp [WordUpsert, SelectOne]
  · intro fu t word habs
    have h0 := (rowsFor_nil_iff t word.Word).mpr habs
    simp [WordUpsert, SelectOne, h0, Insert]
  · intro t w
    simp [FetchWord, SelectOne]
  · intro fi t word c hu hmem
    have h1 : rowsFor t word.Word = [⟨word.Word, c⟩] := rowsFor_of_mem hu hmem
    simp [WordUpsert, SelectOne, h1, Update, checkErr]
  · intro t
    simp [FetchWords, Select, checkErr]
  · intro ft fc file
    simp [initDb, sqlOpen, faultError, checkErr]
  · intro ft file
    cases ft <;> cases file <;>
      simp [initDb, sqlOpen, faultError, checkErr, TruncateTables, CreateTablesIfNotExists]

/-- C6 (amended), for the failure `disk I/O error` and the store `{a: 1}`: an
`Insert` failure for `b` is returned, an `Update` failure for `a` ends the
process. -/
theorem failure_returned_or_fatal_witness :
    WordUpsert (some "[words] ") ⟨none, some "disk I/O error", none⟩ [⟨"a", 1⟩] ⟨"b", 0⟩ =
      .ok ([⟨"a", 1⟩], some (.failure "disk I/O error")) ∧
    WordUpsert (some "[words] ") ⟨none, none, some "disk I/O error"⟩ [⟨"a", 1⟩] ⟨"a", 0⟩ =
      .error (Fatalln (some "[words] ") "Update failed" (.failure "disk I/O error")) :=
  ⟨(failure_returned_or_fatal (some "[words] ") "disk I/O error").2.1 none [⟨"a", 1⟩] ⟨"b", 0⟩
      (by decide),
    (failure_returned_or_fatal (some "[words] ") "disk I/O error").2.2.2.1 none [⟨"a", 1⟩]
      ⟨"a", 0⟩ 1 (by decide) (by decide)⟩

/-- When the truncate step does not fail: whatever the database file held
before (no table, or a table with any rows), `initDb` without persistence
failure completes and leaves a table with no rows, on which `FetchWords`
returns an empty sequence and a nil error and `FetchWord` of every word returns
the zero-value `Word` and a nil error; and every completed `initDb` whose
truncate step did not fail leaves a table with no rows. -/
theorem initDb_leaves_no_rows (logger : Logger) (file : Option Table) :
    initDb logger InitFaults.none file = .ok (some []) ∧
    (∀ (f : InitFaults) (db : Option Table),
      f.truncate = none → initDb logger f file = .ok db → db = some []) ∧
    FetchWords logger none [] = .ok ([], none) ∧
    ∀ w : String, FetchWord none [] w = (emptyWord, none) := by
  refine ⟨?_, ?_, ?_, ?_⟩
  · cases file <;> rfl
  · rintro ⟨fo, ft, fc⟩ db ht h
    simp only at ht
    subst ht
    cases fo <;> cases fc <;> cases file <;>
      simp_all [initDb, sqlOpen, faultError, checkErr, TruncateTables, CreateTablesIfNotExists]
  · rfl
  · intro w; rfl

/-- C7, the defect: on a database file holding `{a: 5}`, when the truncate step
fails `initDb` (and `init`) still completes, and the store then holds a row:
`FetchWords` returns `{a, 5}` and `FetchWord` of `a` reports it present with
count 5.  So it is not true that every completed `initDb` leaves no rows. -/
theorem initDb_completes_with_rows :
    initDb (some "[words] ") ⟨none, some "database is locked", none⟩ (some [⟨"a", 5⟩]) =
      .ok (some [⟨"a", 5⟩]) ∧
    init ⟨none, some "database is locked", none⟩ (some [⟨"a", 5⟩]) =
      .ok (some [⟨"a", 5⟩], some "[words] ") ∧
    FetchWords (some "[words] ") none [⟨"a", 5⟩] = .ok ([⟨"a", 5⟩], none) ∧
    FetchWord none [⟨"a", 5⟩] "a" = (⟨"a", 5⟩, none) ∧
    (FetchWord none [⟨"a", 5⟩] "a").1 ≠ emptyWord ∧
    ¬ ∀ (logger : Logger) (f : InitFaults) (file db : Option Table),
        initDb logger f file = .ok db → db = some [] := by
  refine ⟨by decide, by decide, by decide, by decide, by decide, fun h => ?_⟩
  have h5 := h none ⟨none, some "database is locked", none⟩ (some [⟨"a", 5⟩])
    (some [⟨"a", 5⟩]) (by decide)
  exact absurd h5 (by decide)

/-- C10, the defect: on a database file holding `{a: 5}`, a failure of the
truncate step is dropped; `initDb`, and with it `init`, completes as if
nothing had happened and the row is still there.  A failure of the open step
or of the create step does end the process. -/
theorem initDb_drops_truncate_failure :
    initDb none ⟨none, some "database is locked", none⟩ (some [⟨"a", 5⟩]) =
      .ok (some [⟨"a", 5⟩]) ∧
    init ⟨none, some "database is locked", none⟩ (some [⟨"a", 5⟩]) =
      .ok (some [⟨"a", 5⟩], some "[words] ") ∧
    FetchWord none [⟨"a", 5⟩] "a" = (⟨"a", 5⟩, none) ∧
    init ⟨some "unable to open database file", none, none⟩ (some [⟨"a", 5⟩]) =
      .error .nilLogger ∧
    init ⟨none, none, some "database is locked"⟩ (some [⟨"a", 5⟩]) = .error .nilLogger := by
  decide

/-- C2, as stated, fails: `2 ^ 63` successful `WordUpsert` calls for `a` on the
empty store leave the count at the smallest `int`, not at `2 ^ 63`. -/
theorem sequential_upserts_wrap :
    upsertAll (some "[words] ") [] (List.replicate (2 ^ 63) (UpsertFaults.none, ⟨"a", 0⟩)) =
      some [⟨"a", -9223372036854775808⟩] ∧
    FetchWord none [⟨"a", -9223372036854775808⟩] "a" = (⟨"a", -9223372036854775808⟩, none) ∧
    (FetchWord none [⟨"a", -9223372036854775808⟩] "a").1.Count ≠ ((2 ^ 63 : Nat) : Int) := by
  refine ⟨?_, by decide, by decide⟩
  rw [upsertAll_replicate_nil (some "[words] ") "a" 0 (2 ^ 63) (by decide), wrapInt_two_pow]

/-- C2 (amended): for every word `w` and every `N` with `1 ≤ N < 2 ^ 63`,
starting from the empty store, `N` sequential `WordUpsert` calls for `w`
(with any `Count` in the argument) that all succeed make `FetchWord(w)` return
`Count = N`; and when the storage layer reports no failure they all
succeed. -/
theorem sequential_upserts_count (logger : Logger) (w : String)
    (calls : List (UpsertFaults × Word)) (hw : ∀ c ∈ calls, c.2.Word = w)
    (h1 : 1 ≤ calls.length) (hN : calls.length < 2 ^ 63) :
    (∀ t, upsertAll logger [] calls = some t →
      FetchWord none t w = (⟨w, (calls.length : Int)⟩, none)) ∧
    ((∀ c ∈ calls, c.1 = UpsertFaults.none) → ∃ t, upsertAll logger [] calls = some t) := by
  exact ⟨fun t h => FetchWord_present (rowsFor_upsertAll_same_word hw h1 hN h),
    fun hf => upsertAll_succeeds logger calls [] _ tracks_nil hf⟩

/-- C2 (amended) for three calls for `a`, with different `Count` arguments. -/
theorem sequential_upserts_count_witness :
    upsertAll none [] [(UpsertFaults.none, ⟨"a", 0⟩), (UpsertFaults.none, ⟨"a", 7⟩),
      (UpsertFaults.none, ⟨"a", -1⟩)] = some [⟨"a", 3⟩] ∧
    FetchWord none [⟨"a", 3⟩] "a" = (⟨"a", 3⟩, none) ∧
    ∃ t, upsertAll none [] [(UpsertFaults.none, ⟨"a", 0⟩), (UpsertFaults.none, ⟨"a", 7⟩),
      (UpsertFaults.none, ⟨"a", -1⟩)] = some t :=
  ⟨by decide,
    (sequential_upserts_count none "a" [(UpsertFaults.none, ⟨"a", 0⟩),
      (UpsertFaults.none, ⟨"a", 7⟩), (UpsertFaults.none, ⟨"a", -1⟩)] (by decide) (by decide)
      (by decide)).1 [⟨"a", 3⟩] (by decide),
    (sequential_upserts_count none "a" [(UpsertFaults.none, ⟨"a", 0⟩),
      (UpsertFaults.none, ⟨"a", 7⟩), (UpsertFaults.none, ⟨"a", -1⟩)] (by decide) (by decide)
      (by decide)).2 (by decide)⟩

/-- C5, as stated, fails: after `2 ^ 63` successful observations of `a` on the
empty store, `FetchWords` returns the single entry for `a` with the smallest
`int` as count, while `a` occurs `2 ^ 63` times in the sequence. -/
theorem FetchWords_count_wraps :
    upsertAll (some "[words] ") [] (List.replicate (2 ^ 63) (UpsertFaults.none, ⟨"a", 0⟩)) =
      some [⟨"a", -9223372036854775808⟩] ∧
    FetchWords (some "[words] ") none [⟨"a", -9223372036854775808⟩] =
      .ok ([⟨"a", -9223372036854775808⟩], none) ∧
    (observed (List.replicate (2 ^ 63) (UpsertFaults.none, ⟨"a", 0⟩))).count "a" = 2 ^ 63 ∧
    (-9223372036854775808 : Int) ≠ ((2 ^ 63 : Nat) : Int) := by
  refine ⟨?_, by decide, ?_, by decide⟩
  · rw [upsertAll_replicate_nil (some "[words] ") "a" 0 (2 ^ 63) (by decide), wrapInt_two_pow]
  · rw [observed, List.map_replicate, List.count_replicate_self]

/-- C5 (amended): for every finite sequence of words observed by successful
`WordUpsert` calls on the empty store in which no word occurs `2 ^ 63` times or
more, `FetchWords` returns, with a nil error, exactly one entry per distinct
word of the sequence, whose `Count` is the number of times the word occurs in
the sequence, and no other entry. -/
theorem FetchWords_counts_observations (logger : Logger)
    (calls : List (UpsertFaults × Word)) (t : Table)
    (hb : ∀ w, (observed calls).count w < 2 ^ 63)
    (h : upsertAll logger [] calls = some t) :
    ∃ ws, FetchWords logger none t = .ok (ws, none) ∧
      (ws.map (fun r => r.Word)).Nodup ∧
      ∀ r : Word, r ∈ ws ↔
        (r.Word ∈ observed calls ∧ r.Count = ((observed calls).count r.Word : Int)) := by
  have ht := tracks_upsertAll logger calls [] t _ tracks_nil h
  refine ⟨t, by simp [FetchWords, Select, checkErr], tracks_keysUnique ht, fun r => ?_⟩
  have hr := ht r.Word
  simp only [Nat.zero_add] at hr
  have hwrap : wrapInt ((observed calls).count r.Word : Int) =
      ((observed calls).count r.Word : Int) := by
    have := hb r.Word
    apply wrapInt_of_range
    · simp only [minInt]; omega
    · simp only [maxInt]; omega
  rw [hwrap] at hr
  have hmem : r ∈ t ↔ r ∈ rowsFor t r.Word := by
    rw [mem_rowsFor]; exact ⟨fun h => ⟨h, rfl⟩, fun h => h.1⟩
  rw [hmem, hr]
  by_cases h0 : (observed calls).count r.Word = 0
  · rw [if_pos h0]
    have : r.Word ∉ observed calls := List.count_eq_zero.mp h0
    simp [this]
  · rw [if_neg h0]
    have hin : r.Word ∈ observed calls := by
      by_contra hnot
      exact h0 (List.count_eq_zero.mpr hnot)
    simp only [List.mem_singleton, hin, true_and]
    constructor
    · intro he
      rw [he]
    · intro hc
      cases r with
      | mk rw rc =>
        simp only at hc
        simp only [hc]

/-- C5 (amended) for the observations `a`, `b`, `a`: `FetchWords` returns
exactly `{a, 2}` and `{b, 1}`. -/
theorem FetchWords_counts_observations_witness :
    upsertAll none [] [(UpsertFaults.none, ⟨"a", 0⟩), (UpsertFaults.none, ⟨"b", 0⟩),
      (UpsertFaults.none, ⟨"a", 0⟩)] = some [⟨"a", 2⟩, ⟨"b", 1⟩] ∧
    FetchWords none none [⟨"a", 2⟩, ⟨"b", 1⟩] = .ok ([⟨"a", 2⟩, ⟨"b", 1⟩], none) ∧
    ∃ ws, FetchWords none none [⟨"a", 2⟩, ⟨"b", 1⟩] = .ok (ws, none) ∧
      (ws.map (fun r => r.Word)).Nodup ∧
      ∀ r : Word, r ∈ ws ↔
        (r.Word ∈ observed [(UpsertFaults.none, ⟨"a", 0⟩), (UpsertFaults.none, ⟨"b", 0⟩),
            (UpsertFaults.none, ⟨"a", 0⟩)] ∧
          r.Count = ((observed [(UpsertFaults.none, ⟨"a", 0⟩), (UpsertFaults.none, ⟨"b", 0⟩),
            (UpsertFaults.none, ⟨"a", 0⟩)]).count r.Word : Int)) :=
  ⟨by decide, by decide,
    FetchWords_counts_observations none [(UpsertFaults.none, ⟨"a", 0⟩),
      (UpsertFaults.none, ⟨"b", 0⟩), (UpsertFaults.none, ⟨"a", 0⟩)] [⟨"a", 2⟩, ⟨"b", 1⟩]
      (fun w => lt_of_le_of_lt (List.count_le_length _ _) (by decide)) (by decide)⟩

/-- C8: in every store state reached from the empty store by any sequence of
`WordUpsert`, `FetchWord` and `FetchWords` calls, whatever failures the storage
layer reports, no two rows have the same word: at most one row exists per
word; and a `WordUpsert` in such a state leaves such a state and adds no row
when its word already has one. -/
theorem one_row_per_word (logger : Logger) (calls : List Call) :
    KeysUnique (run logger [] calls) ∧
    (∀ w, (rowsFor (run logger [] calls) w).length ≤ 1) ∧
    ∀ (f : UpsertFaults) (word : Word) (t' : Table) (err : GoError),
      WordUpsert logger f (run logger [] calls) word = .ok (t', err) →
      KeysUnique t' ∧ (∀ w, (rowsFor t' w).length ≤ 1) ∧
      (rowsFor (run logger [] calls) word.Word ≠ [] →
        t'.length = (run logger [] calls).length) := by
  have hu : KeysUnique (run logger [] calls) :=
    keysUnique_run logger calls [] (by simp [KeysUnique])
  refine ⟨hu, rowsFor_length_le_one hu, ?_⟩
  intro f word t' err h
  have hu' := keysUnique_WordUpsert hu h
  refine ⟨hu', rowsFor_length_le_one hu', fun hne => ?_⟩
  rcases WordUpsert_cases logger f (run logger [] calls) word with
    ⟨h0, _⟩ | ⟨r, _, he⟩ | ⟨e, he⟩ | ⟨c, he⟩
  · exact absurd h0 hne
  · rw [he] at h
    injection h with h; injection h with h
    subst h
    exact setCount_length _ _ _
  · rw [he] at h
    injection h with h; injection h with h
    subst h
    rfl
  · rw [he] at h
    cases h

/-- C8 after the calls `a`, `b`, `FetchWords`, `a`: one more `WordUpsert` for
`a` leaves two rows. -/
theorem one_row_per_word_witness :
    run none [] [.upsert .none ⟨"a", 0⟩, .upsert .none ⟨"b", 0⟩, .fetchWords none,
      .upsert .none ⟨"a", 0⟩] = [⟨"a", 2⟩, ⟨"b", 1⟩] ∧
    KeysUnique [⟨"a", 3⟩, ⟨"b", 1⟩] ∧
    (∀ w, (rowsFor [⟨"a", 3⟩, ⟨"b", 1⟩] w).length ≤ 1) ∧
    (rowsFor (run none [] [.upsert .none ⟨"a", 0⟩, .upsert .none ⟨"b", 0⟩, .fetchWords none,
        .upsert .none ⟨"a", 0⟩]) "a" ≠ [] →
      ([⟨"a", 3⟩, ⟨"b", 1⟩] : Table).length =
        (run none [] [.upsert .none ⟨"a", 0⟩, .upsert .none ⟨"b", 0⟩, .fetchWords none,
          .upsert .none ⟨"a", 0⟩]).length) :=
  ⟨by decide,
    (one_row_per_word none [.upsert .none ⟨"a", 0⟩, .upsert .none ⟨"b", 0⟩, .fetchWords none,
      .upsert .none ⟨"a", 0⟩]).2.2 .none ⟨"a", 0⟩ [⟨"a", 3⟩, ⟨"b", 1⟩] none (by decide)⟩

/-- C9, as stated, fails: `2 ^ 63` successful `WordUpsert` calls for `a` on the
empty store reach a state whose row for `a` has the smallest `int` as count,
which is below 1. -/
theorem count_below_one_reachable :
    run (some "[words] ") [] (List.replicate (2 ^ 63) (Call.upsert UpsertFaults.none ⟨"a", 0⟩)) =
      [⟨"a", -9223372036854775808⟩] ∧
    ¬ (1 ≤ (⟨"a", -9223372036854775808⟩ : Word).Count) := by
  refine ⟨?_, by decide⟩
  have h := run_of_upsertAll (some "[words] ") _ [] _
    (upsertAll_replicate_nil (some "[words] ") "a" 0 (2 ^ 63) (by decide))
  rw [List.map_replicate, wrapInt_two_pow] at h
  exact h

/-- C9 (amended): in every store state reached from the empty store by a
sequence of `WordUpsert`, `FetchWord` and `FetchWords` calls with fewer than
`2 ^ 63` `WordUpsert` calls, with any `Count` in the arguments and whatever
failures the storage layer reports, every row has `count ≥ 1` (and at most the
number of `WordUpsert` calls); so a `FetchWord` that returns a nil error and a
zero `Count` was asked for an absent word. -/
theorem counts_at_least_one (logger : Logger) (calls : List Call)
    (hb : upserts calls < 2 ^ 63) :
    (∀ r ∈ run logger [] calls, 1 ≤ r.Count ∧ r.Count ≤ (upserts calls : Int)) ∧
    ∀ (fault : Option String) (w : String) (word : Word),
      FetchWord fault (run logger [] calls) w = (word, none) → word.Count = 0 →
      ∀ r ∈ run logger [] calls, r.Word ≠ w := by
  have hinv : ∀ r ∈ run logger [] calls, 1 ≤ r.Count ∧ r.Count ≤ (upserts calls : Int) := by
    have := counts_run logger calls [] 0 (by omega) (by simp)
    simpa using this
  refine ⟨hinv, ?_⟩
  intro fault w word hf hz
  cases fault with
  | some m => simp [FetchWord, SelectOne] at hf
  | none =>
    rcases hrows : rowsFor (run logger [] calls) w with _ | ⟨r, _ | ⟨r2, rest⟩⟩
    · exact (rowsFor_nil_iff _ w).mp hrows
    · rw [FetchWord_present hrows] at hf
      injection hf with hf _
      subst hf
      have hr : r ∈ rowsFor (run logger [] calls) w := by
        rw [hrows]; exact List.mem_singleton.mpr rfl
      have := (hinv r ((mem_rowsFor _ w r).mp hr).1).1
      omega
    · simp [FetchWord, SelectOne, hrows] at hf

/-- C9 (amended) after the calls `a` with `Count` 0, `b` with `Count` -5,
`a` with `Count` 0: the counts are 2 and 1, and `FetchWord` returns a zero
count for the absent `c`. -/
theorem counts_at_least_one_witness :
    run none [] [.upsert .none ⟨"a", 0⟩, .upsert .none ⟨"b", -5⟩, .upsert .none ⟨"a", 0⟩] =
      [⟨"a", 2⟩, ⟨"b", 1⟩] ∧
    upserts [.upsert .none ⟨"a", 0⟩, .upsert .none ⟨"b", -5⟩, .upsert .none ⟨"a", 0⟩] < 2 ^ 63 ∧
    (∀ r ∈ run none [] [.upsert .none ⟨"a", 0⟩, .upsert .none ⟨"b", -5⟩, .upsert .none ⟨"a", 0⟩],
      1 ≤ r.Count ∧
      r.Count ≤ (upserts [.upsert .none ⟨"a", 0⟩, .upsert .none ⟨"b", -5⟩,
        .upsert .none ⟨"a", 0⟩] : Int)) ∧
    ∀ r ∈ run none [] [.upsert .none ⟨"a", 0⟩, .upsert .none ⟨"b", -5⟩, .upsert .none ⟨"a", 0⟩],
      r.Word ≠ "c" :=
  ⟨by decide, by decide,
    (counts_at_least_one none [.upsert .none ⟨"a", 0⟩, .upsert .none ⟨"b", -5⟩,
      .upsert .none ⟨"a", 0⟩] (by decide)).1,
    (counts_at_least_one none [.upsert .none ⟨"a", 0⟩, .upsert .none ⟨"b", -5⟩,
      .upsert .none ⟨"a", 0⟩] (by decide)).2 none "c" emptyWord (by decide) (by decide)⟩

/-- C3, as stated, fails: three callers of `WordUpsert` for `a` on the empty
store; the first completes, then the second and the third both read count 1
before either writes.  All three return a nil error and the count is 2, not
3: one increment is lost. -/
theorem concurrent_upserts_lose_an_increment :
    runSchedule (some "[words] ") []
        [.called ⟨"a", 0⟩, .called ⟨"a", 0⟩, .called ⟨"a", 0⟩] [0, 0, 1, 2, 1, 2] =
      .ok ([⟨"a", 2⟩], [.returned none, .returned none, .returned none]) ∧
    FetchWord none [⟨"a", 2⟩] "a" = (⟨"a", 2⟩, none) ∧
    (FetchWord none [⟨"a", 2⟩] "a").1.Count ≠ 3 := by
  decide

/-- C3 (amended): for any word `w` and any `M < 2 ^ 63` callers of `WordUpsert`
for `w` on the empty store, with no storage failure: under every interleaving
of the callers' storage reads and writes the process keeps running, no
duplicate row is created, and once all callers have returned (`M ≥ 1`)
`FetchWord(w)` returns a count between 1 and `M`; the count is `M` exactly when
the calls do not overlap. -/
theorem concurrent_upserts (logger : Logger) (w : String) (args : List Word)
    (hw : ∀ a ∈ args, a.Word = w) (hM : args.length < 2 ^ 63) :
    (∀ sched : List Nat, ∃ t ths,
      runSchedule logger [] (args.map Thread.called) sched = .ok (t, ths) ∧
      KeysUnique t ∧ (∀ v, (rowsFor t v).length ≤ 1) ∧
      (allReturned ths = true → args ≠ [] →
        ∃ c : Int, FetchWord none t w = (⟨w, c⟩, none) ∧ 1 ≤ c ∧ c ≤ (args.length : Int))) ∧
    (args ≠ [] → ∃ t,
      runSchedule logger [] (args.map Thread.called) (seqSchedule 0 args.length) =
        .ok (t, args.map (fun _ => Thread.returned none)) ∧
      FetchWord none t w = (⟨w, (args.length : Int)⟩, none)) := by
  constructor
  · intro sched
    have hlen : (args.map Thread.called).length < 2 ^ 63 := by simpa using hM
    obtain ⟨t, ths, hr, hinv, hl⟩ := inv_runSchedule logger sched [] _ (inv_start args hw) hlen
    have hu : KeysUnique t := by
      rcases hinv.table with ht | ⟨c, ht, _, _⟩ <;> subst ht <;> simp [KeysUnique]
    refine ⟨t, ths, hr, hu, rowsFor_length_le_one hu, ?_⟩
    intro hall hne
    have hths : ths ≠ [] := by
      intro h
      rw [h, List.length_nil, List.length_map] at hl
      exact hne (List.length_eq_zero.mp hl.symm)
    have htne := hinv.nonempty (hasRead_of_allReturned ths hall hths)
    rcases hinv.table with ht | ⟨c, ht, hc1, hc2⟩
    · exact absurd ht htne
    · subst ht
      refine ⟨c, FetchWord_present (by simp [rowsFor]), hc1, ?_⟩
      have := returnedOk_le_length ths
      rw [hl, List.length_map] at this
      omega
  · intro hne
    have hpos : 1 ≤ args.length := by
      cases args with
      | nil => exact absurd rfl hne
      | cons a as => simp
    have hlen : (args.map (fun a => (UpsertFaults.none, a))).length = args.length := by simp
    obtain ⟨t, ht⟩ := upsertAll_succeeds logger (args.map (fun a => (UpsertFaults.none, a))) []
      _ tracks_nil (by simp)
    have hseq := runSchedule_seq logger args [] [] t ht
    simp only [List.nil_append, List.length_nil] at hseq
    refine ⟨t, hseq, FetchWord_present ?_⟩
    have hrow : rowsFor t w = [⟨w, _⟩] := rowsFor_upsertAll_same_word (by simpa using hw)
      (by rw [hlen]; exact hpos) (by rw [hlen]; exact hM) ht
    rw [hlen] at hrow
    exact hrow

/-- C3 (amended) for three callers for `a`: under the schedule that loses an
increment there is one row, with a count between 1 and 3; without overlap the
count is 3. -/
theorem concurrent_upserts_witness :
    (∃ t ths, runSchedule none [] (List.map Thread.called [⟨"a", 0⟩, ⟨"a", 0⟩, ⟨"a", 0⟩])
        [0, 0, 1, 2, 1, 2] = .ok (t, ths) ∧
      KeysUnique t ∧ (∀ v, (rowsFor t v).length ≤ 1) ∧
      (allReturned ths = true → ([⟨"a", 0⟩, ⟨"a", 0⟩, ⟨"a", 0⟩] : List Word) ≠ [] →
        ∃ c : Int, FetchWord none t "a" = (⟨"a", c⟩, none) ∧ 1 ≤ c ∧
          c ≤ (([⟨"a", 0⟩, ⟨"a", 0⟩, ⟨"a", 0⟩] : List Word).length : Int))) ∧
    ∃ t, runSchedule none [] (List.map Thread.called [⟨"a", 0⟩, ⟨"a", 0⟩, ⟨"a", 0⟩])
        (seqSchedule 0 ([⟨"a", 0⟩, ⟨"a", 0⟩, ⟨"a", 0⟩] : List Word).length) =
        .ok (t, List.map (fun _ => Thread.returned none)
          ([⟨"a", 0⟩, ⟨"a", 0⟩, ⟨"a", 0⟩] : List Word)) ∧
      FetchWord none t "a" =
        (⟨"a", (([⟨"a", 0⟩, ⟨"a", 0⟩, ⟨"a", 0⟩] : List Word).length : Int)⟩, none) :=
  ⟨(concurrent_upserts none "a" [⟨"a", 0⟩, ⟨"a", 0⟩, ⟨"a", 0⟩] (by decide) (by decide)).1
      [0, 0, 1, 2, 1, 2],
    (concurrent_upserts none "a" [⟨"a", 0⟩, ⟨"a", 0⟩, ⟨"a", 0⟩] (by decide) (by decide)).2
      (by decide)⟩

end Words
